import Mathlib

/-!
Verification of the PQ-encoder / PQ-code k-means design of the pqkmeans
repository.  The repository ships the library behind a tutorial notebook;
the library implementation itself is not part of the checked-out sources,
so the components below are modelled from the specification document
(sections 3, 4.1-4.5, 7) and checked against the claims.  Vectors are
modelled as lists of rationals, PQ codes as lists of naturals, and the
fallible public operations return an `Except` over the error kinds of the
error-handling design.
-/

namespace PQKM

/-- Modelled from the spec: the error kinds of section 7 of the design
(`DimensionMismatchError`, `InsufficientDataError`, `NotFittedError`,
`InvalidParameterError`, `EmptyClusterError`). -/
inductive PQError where
  | dimensionMismatch
  | insufficientData
  | notFitted
  | invalidParameter
  | emptyCluster
  deriving DecidableEq

/-- Squared Euclidean distance between two vectors (componentwise over the
common length).  The spec's distance tables store squared Euclidean
distances; minimising the squared distance is equivalent to minimising the
Euclidean distance. -/
def sqDist (x y : List ℚ) : ℚ :=
  (List.zipWith (fun a b => (a - b) ^ 2) x y).sum

/-- Index of the first minimum of a list of rationals: ties are broken by
the lowest index, matching the documented lowest-index-wins rule. -/
def argminIdx : List ℚ → Nat
  | [] => 0
  | [_] => 0
  | x :: y :: ys =>
    let j := argminIdx (y :: ys)
    if (y :: ys).getD j 0 < x then j + 1 else 0

/-- Splits a vector into `M` contiguous sub-vectors of dimensionality `Ds`
(the fixed subspace partition of the data model). -/
def splitVec (Ds : Nat) : Nat → List ℚ → List (List ℚ)
  | 0, _ => []
  | M + 1, v => v.take Ds :: splitVec Ds M (v.drop Ds)

/-- Index of the codeword of one subspace codebook nearest (in squared
Euclidean distance) to a sub-vector, ties broken by lowest codeword
index. -/
def nearestCodeword (cb : List (List ℚ)) (sub : List ℚ) : Nat :=
  argminIdx (cb.map (fun w => sqDist w sub))

/-- Modelled from the spec: the PQ encoder of section 4.2.  It owns `M`
subspace codebooks of `Ks` codewords of dimensionality `Ds` each once
fitted; before `fit` the codebook collection is absent (`none`), which is
what makes encode/decode/distance operations fail with
`NotFittedError`. -/
structure PQEncoder where
  M : Nat
  Ks : Nat
  Ds : Nat
  codebooks : Option (List (List (List ℚ)))
  deriving DecidableEq

/-- Well-formedness of a codebook collection: `M` codebooks, each holding
`Ks` codewords of dimensionality `Ds`. -/
def wellFormed (M Ks Ds : Nat) (cbs : List (List (List ℚ))) : Prop :=
  cbs.length = M ∧ ∀ cb ∈ cbs, cb.length = Ks ∧ ∀ w ∈ cb, w.length = Ds

/-- Modelled from the spec: `encode(vector) -> PQCode` (section 4.2).
For each subspace the nearest codeword index is taken; a wrong-length
input fails with `DimensionMismatchError` and an unfitted encoder fails
with `NotFittedError`. -/
def encode (e : PQEncoder) (v : List ℚ) : Except PQError (List Nat) :=
  match e.codebooks with
  | none => .error .notFitted
  | some cbs =>
    if v.length = e.M * e.Ds then
      .ok (List.zipWith (fun cb sub => nearestCodeword cb sub) cbs (splitVec e.Ds e.M v))
    else .error .dimensionMismatch

/-- Modelled from the spec: `decode(code) -> Vector` (section 4.2):
concatenates the `M` codewords indexed by the code. -/
def decode (e : PQEncoder) (code : List Nat) : Except PQError (List ℚ) :=
  match e.codebooks with
  | none => .error .notFitted
  | some cbs =>
    if code.length = e.M then
      .ok ((List.zipWith (fun cb j => cb.getD j []) cbs code).flatten)
    else .error .dimensionMismatch

/-- Sum over subspaces of the squared distance between the codewords two
codes select in that subspace (the symmetric code-space distance). -/
def codeDist (cbs : List (List (List ℚ))) (a b : List Nat) : ℚ :=
  (List.zipWith (fun cb p => sqDist (cb.getD p.1 []) (cb.getD p.2 []))
    cbs (a.zip b)).sum

/-- Modelled from the spec: `code_to_code_distance(codeA, codeB)`
(section 4.2), failing with `NotFittedError` before training. -/
def code_to_code_distance (e : PQEncoder) (a b : List Nat) : Except PQError ℚ :=
  match e.codebooks with
  | none => .error .notFitted
  | some cbs => .ok (codeDist cbs a b)

/-- Modelled from the spec: `distance_table(vector)` (sections 4.2 and
4.4): the `M × Ks` table of squared distances between each codeword and
the query's sub-vector in that subspace. -/
def distance_table (e : PQEncoder) (v : List ℚ) : Except PQError (List (List ℚ)) :=
  match e.codebooks with
  | none => .error .notFitted
  | some cbs =>
    if v.length = e.M * e.Ds then
      .ok (List.zipWith (fun cb sub => cb.map (fun w => sqDist w sub)) cbs (splitVec e.Ds e.M v))
    else .error .dimensionMismatch

/-- Componentwise mean of a set of sub-vectors of dimensionality `Ds`
(the centroid-update primitive of the subspace trainer). -/
def mean (Ds : Nat) (vs : List (List ℚ)) : List ℚ :=
  if vs.length = 0 then List.replicate Ds 0
  else (vs.foldl (fun acc v => List.zipWith (fun a b => a + b) acc v)
    (List.replicate Ds 0)).map (fun x => x / (vs.length : ℚ))

/-- One Lloyd iteration of the subspace k-means trainer: each point joins
its nearest centroid (lowest index on ties) and each non-empty cluster's
centroid becomes the mean of its members; an empty cluster keeps its
centroid. -/
def lloydStep (centroids : List (List ℚ)) (points : List (List ℚ)) : List (List ℚ) :=
  centroids.enum.map (fun ic =>
    let members := points.filter
      (fun p => argminIdx (centroids.map (fun c => sqDist c p)) == ic.1)
    if members.isEmpty then ic.2 else mean ic.2.length members)

/-- Iterates the Lloyd step a fixed number of times. -/
def lloydIter (points : List (List ℚ)) : Nat → List (List ℚ) → List (List ℚ)
  | 0, cs => cs
  | t + 1, cs => lloydIter points t (lloydStep cs points)

/-- Modelled from the spec: the subspace codebook trainer and `fit`
(sections 4.1 and 4.2).  The dimensionality is read from the samples, `M`
must divide it, and fewer samples than `Ks` fail with
`InsufficientDataError`; each subspace's codebook is learnt independently
by k-means over that subspace's sub-vectors, deterministically seeded
from the first `Ks` sub-vectors (the ordering of the codewords is an
implementation-defined but stable choice per the spec). -/
def fit (e : PQEncoder) (iters : Nat) (samples : List (List ℚ)) :
    Except PQError PQEncoder :=
  let D := (samples.headD []).length
  if e.M = 0 then .error .invalidParameter
  else if ¬ e.M ∣ D then .error .dimensionMismatch
  else if ¬ samples.all (fun s => s.length == D) then .error .dimensionMismatch
  else if samples.length < e.Ks then .error .insufficientData
  else
    let Ds := D / e.M
    .ok { e with
      Ds := Ds
      codebooks := some ((List.range e.M).map (fun m =>
        lloydIter (samples.map (fun s => (s.drop (m * Ds)).take Ds)) iters
          ((samples.map (fun s => (s.drop (m * Ds)).take Ds)).take e.Ks))) }

/-- Splits a list into batches of `fuel` recursion depth; the batch size
is at least one so the recursion always makes progress. -/
def chunksAux (bs : Nat) : Nat → List (List ℚ) → List (List (List ℚ))
  | 0, _ => []
  | _, [] => []
  | fuel + 1, l => l.take bs :: chunksAux bs fuel (l.drop bs)

/-- Splits the input stream into contiguous batches of `bs` vectors (at
least one per batch), preserving order. -/
def chunks (bs : Nat) (l : List (List ℚ)) : List (List (List ℚ)) :=
  chunksAux (max bs 1) l.length l

/-- Output of one worker of the streaming transform: the worker receives
the batches whose index is congruent to its id modulo the worker count,
encodes each batch, and tags every result with the batch index so that
re-assembly can restore input order. -/
def workerOutput (e : PQEncoder) (n w : Nat)
    (ibs : List (Nat × List (List ℚ))) :
    List (Nat × List (Except PQError (List Nat))) :=
  (ibs.filter (fun ib => ib.1 % n == w)).map
    (fun ib => (ib.1, ib.2.map (fun v => encode e v)))

/-- Modelled from the spec: the streaming transform (section 4.3).  The
source is chunked into bounded batches, batches are dispatched round-robin
to `numWorkers` workers, and the tagged results are re-assembled in batch
index order, so the output lists one code per input vector in input
order. -/
def transform_generator (e : PQEncoder) (numWorkers batchSize : Nat)
    (vs : List (List ℚ)) : List (Except PQError (List Nat)) :=
  let n := max numWorkers 1
  let ibs := (chunks batchSize vs).enum
  (ibs.map (fun ib => ((workerOutput e n (ib.1 % n) ibs).lookup ib.1).getD [])).flatten

/-- Member codes of cluster `k` under a label assignment (position `i` of
`labels` labels position `i` of `codes`). -/
def clusterMembers (codes : List (List Nat)) (labels : List Nat) (k : Nat) :
    List (List Nat) :=
  ((codes.zip labels).filter (fun p => p.2 == k)).map Prod.fst

/-- Assigning step of PQ-code k-means: every code joins the representative
nearest in code-space distance, ties broken by lowest cluster index. -/
def assignStep (cbs : List (List (List ℚ))) (reps : List (List Nat))
    (codes : List (List Nat)) : List Nat :=
  codes.map (fun c => argminIdx (reps.map (fun r => codeDist cbs c r)))

/-- Total squared distance from candidate codeword `j` of one subspace
codebook to the member codes' selected codewords in that subspace. -/
def subspaceScore (cb : List (List ℚ)) (entries : List Nat) (j : Nat) : ℚ :=
  (entries.map (fun i => sqDist (cb.getD j []) (cb.getD i []))).sum

/-- Exhaustive search over the `Ks` candidate codewords of one subspace
for the one minimising the total member distance (the discrete
median-like update of section 4.5), ties broken by lowest index. -/
def bestCodeword (cb : List (List ℚ)) (entries : List Nat) : Nat :=
  argminIdx ((List.range cb.length).map (fun j => subspaceScore cb entries j))

/-- Recomputes a cluster representative from its member codes, one
subspace at a time. -/
def updateRep (cbs : List (List (List ℚ))) (members : List (List Nat)) :
    List Nat :=
  (List.range cbs.length).map (fun m =>
    bestCodeword (cbs.getD m []) (members.map (fun c => c.getD m 0)))

/-- Donor position for re-seeding an empty cluster: the first code of the
lowest-indexed cluster holding at least two members. -/
def stealIdx (K : Nat) (labels : List Nat) : Option Nat :=
  match (List.range K).find? (fun j => decide (2 ≤ labels.count j)) with
  | some j => some (labels.indexOf j)
  | none => none

/-- Processes the clusters in index order; every empty cluster is
re-seeded by relabelling the donor code to it.  The donor cluster keeps
at least one member, so previously re-seeded clusters are never emptied
again. -/
def reseedAux (K : Nat) : List Nat → List Nat → List Nat
  | labels, [] => labels
  | labels, k :: ks =>
    if labels.count k = 0 then
      match stealIdx K labels with
      | some i => reseedAux K (labels.set i k) ks
      | none => reseedAux K labels ks
    else reseedAux K labels ks

/-- Modelled from the spec: the deterministic degenerate-cluster policy of
section 4.5 — each empty cluster is re-seeded from a code stolen from a
cluster that has at least two members, lowest indices first, so
`EmptyClusterError` never escapes. -/
def reseed (K : Nat) (labels : List Nat) : List Nat :=
  reseedAux K labels (List.range K)

/-- Modelled from the spec: the Updating step of section 4.5.  Empty
clusters are first re-seeded by the deterministic policy, then every
cluster's representative is recomputed per subspace as the codeword
minimising the total distance to the member codes. -/
def updatingStep (cbs : List (List (List ℚ))) (K : Nat)
    (codes : List (List Nat)) (labels : List Nat) :
    List (List Nat) × List Nat :=
  let labels2 := reseed K labels
  ((List.range K).map (fun k => updateRep cbs (clusterMembers codes labels2 k)),
    labels2)

/-- Iterates Updating followed by Assigning until the assignment is
unchanged between consecutive Assigning steps or the iteration budget is
exhausted, returning the final label array. -/
def kmeansLoop (cbs : List (List (List ℚ))) (K : Nat)
    (codes : List (List Nat)) : Nat → List Nat → List Nat
  | 0, prev => prev
  | t + 1, prev =>
    let st := updatingStep cbs K codes prev
    let next := assignStep cbs st.1 codes
    if next = prev then next else kmeansLoop cbs K codes t next

/-- Modelled from the spec: `PQKMeans.fit_predict` (sections 4.5 and 6).
The first `K` codes seed the representatives, an initial Assigning runs,
and the engine then alternates Updating and Assigning; the result is one
cluster label per input code, in input order.  `K = 0` fails with
`InvalidParameterError`; an unfitted encoder fails with
`NotFittedError`. -/
def fit_predict (e : PQEncoder) (K : Nat) (codes : List (List Nat))
    (iters : Nat) : Except PQError (List Nat) :=
  match e.codebooks with
  | none => .error .notFitted
  | some cbs =>
    if K = 0 then .error .invalidParameter
    else .ok (kmeansLoop cbs K codes iters (assignStep cbs (codes.take K) codes))

/-- Storage types a PQ code entry can be held in. -/
inductive CodeDtype where
  | uint8
  | uint16
  | uint32
  deriving DecidableEq

/-- Bytes occupied by one code entry of the given storage type. -/
def dtypeBytes : CodeDtype → Nat
  | .uint8 => 1
  | .uint16 => 2
  | .uint32 => 4

/-- Modelled from the spec and the notebook: the encoder's public
`code_dtype` attribute is the smallest unsigned integer type holding all
codeword indices `0 .. Ks - 1` (the notebook shows `uint8` for
`Ks = 256`). -/
def code_dtype (Ks : Nat) : CodeDtype :=
  if Ks ≤ 2 ^ 8 then .uint8
  else if Ks ≤ 2 ^ 16 then .uint16
  else .uint32

/-- Bytes occupied by an `N × M` array of PQ codes stored with the given
entry type. -/
def codesNbytes (N M : Nat) (d : CodeDtype) : Nat :=
  N * M * dtypeBytes d

/-! Basic lemmas about the primitives. -/

theorem getD_map_of_lt {α β : Type} (f : α → β) (l : List α) (i : Nat)
    (h : i < l.length) (d : β) : (l.map f).getD i d = f l[i] := by
  rw [List.getD_eq_getElem _ _ (by simpa using h), List.getElem_map]

theorem argminIdx_cons (x y : ℚ) (ys : List ℚ) :
    argminIdx (x :: y :: ys) =
      if (y :: ys).getD (argminIdx (y :: ys)) 0 < x then argminIdx (y :: ys) + 1
      else 0 := rfl

theorem argminIdx_lt_length (l : List ℚ) (h : l ≠ []) : argminIdx l < l.length := by
  induction l with
  | nil => exact absurd rfl h
  | cons x xs ih =>
    cases xs with
    | nil => simp [argminIdx]
    | cons y ys =>
      rw [argminIdx_cons]
      by_cases hlt : (y :: ys).getD (argminIdx (y :: ys)) 0 < x
      · rw [if_pos hlt]
        have := ih (by simp)
        simpa [Nat.succ_lt_succ_iff] using this
      · rw [if_neg hlt]
        simp

theorem argminIdx_le (l : List ℚ) (i : Nat) (hi : i < l.length) :
    l.getD (argminIdx l) 0 ≤ l.getD i 0 := by
  induction l generalizing i with
  | nil => simp at hi
  | cons x xs ih =>
    cases xs with
    | nil =>
      cases i with
      | zero => simp [argminIdx]
      | succ i => simp at hi
    | cons y ys =>
      rw [argminIdx_cons]
      by_cases hlt : (y :: ys).getD (argminIdx (y :: ys)) 0 < x
      · rw [if_pos hlt, List.getD_cons_succ]
        cases i with
        | zero => exact le_of_lt (by simpa using hlt)
        | succ i => exact ih i (by simpa [Nat.succ_lt_succ_iff] using hi)
      · rw [if_neg hlt, List.getD_cons_zero]
        cases i with
        | zero => simp
        | succ i =>
          have hx : x ≤ (y :: ys).getD (argminIdx (y :: ys)) 0 := le_of_not_lt hlt
          rw [List.getD_cons_succ]
          exact le_trans hx (ih i (by simpa [Nat.succ_lt_succ_iff] using hi))

theorem argminIdx_strict (l : List ℚ) (i : Nat) (hi : i < argminIdx l) :
    l.getD (argminIdx l) 0 < l.getD i 0 := by
  induction l generalizing i with
  | nil => simp [argminIdx] at hi
  | cons x xs ih =>
    cases xs with
    | nil => simp [argminIdx] at hi
    | cons y ys =>
      rw [argminIdx_cons] at hi ⊢
      by_cases hlt : (y :: ys).getD (argminIdx (y :: ys)) 0 < x
      · rw [if_pos hlt] at hi ⊢
        rw [List.getD_cons_succ]
        cases i with
        | zero => simpa using hlt
        | succ i =>
          rw [List.getD_cons_succ]
          exact ih i (by omega)
      · rw [if_neg hlt] at hi
        omega

theorem sqDist_nonneg (x y : List ℚ) : 0 ≤ sqDist x y := by
  induction x generalizing y with
  | nil => simp [sqDist]
  | cons a as ih =>
    cases y with
    | nil => simp [sqDist]
    | cons b bs =>
      have h1 : (0 : ℚ) ≤ (a - b) ^ 2 := sq_nonneg _
      have h2 := ih bs
      simp only [sqDist, List.zipWith_cons_cons, List.sum_cons] at *
      linarith

theorem sqDist_self (x : List ℚ) : sqDist x x = 0 := by
  induction x with
  | nil => simp [sqDist]
  | cons a as ih => simp only [sqDist, List.zipWith_cons_cons, List.sum_cons] at *; simp [ih]

theorem sqDist_comm (x y : List ℚ) : sqDist x y = sqDist y x := by
  induction x generalizing y with
  | nil => cases y <;> simp [sqDist]
  | cons a as ih =>
    cases y with
    | nil => simp [sqDist]
    | cons b bs =>
      simp only [sqDist, List.zipWith_cons_cons, List.sum_cons] at *
      rw [ih bs]
      ring_nf

theorem sqDist_eq_zero (x y : List ℚ) (hlen : x.length = y.length)
    (h : sqDist x y = 0) : x = y := by
  induction x generalizing y with
  | nil => cases y with | nil => rfl | cons b bs => simp at hlen
  | cons a as ih =>
    cases y with
    | nil => simp at hlen
    | cons b bs =>
      simp only [sqDist, List.zipWith_cons_cons, List.sum_cons] at h
      have h1 : (0 : ℚ) ≤ (a - b) ^ 2 := sq_nonneg _
      have h2 : (0 : ℚ) ≤ sqDist as bs := sqDist_nonneg as bs
      have hsq : (a - b) ^ 2 = 0 ∧ sqDist as bs = 0 := by
        constructor <;> [skip; skip] <;> unfold sqDist at * <;> linarith
      have hab : a = b := by
        have := pow_eq_zero_iff (n := 2) (by norm_num) |>.mp hsq.1
        linarith [sub_eq_zero.mp this]
      have : as = bs := ih bs (by simpa using hlen) hsq.2
      rw [hab, this]

theorem splitVec_length (Ds M : Nat) (v : List ℚ) :
    (splitVec Ds M v).length = M := by
  induction M generalizing v with
  | zero => rfl
  | succ M ih => simp [splitVec, ih]

theorem splitVec_getElem (Ds M : Nat) (v : List ℚ) (m : Nat) (hm : m < M)
    (h2 : m < (splitVec Ds M v).length) :
    (splitVec Ds M v)[m] = (v.drop (m * Ds)).take Ds := by
  induction M generalizing v m with
  | zero => omega
  | succ M ih =>
    cases m with
    | zero => simp [splitVec]
    | succ m =>
      have h3 : m < (splitVec Ds M (v.drop Ds)).length := by
        rw [splitVec_length]
        omega
      have := ih (v.drop Ds) m (by omega) h3
      simp only [splitVec, List.getElem_cons_succ, this, List.drop_drop]
      congr 2
      ring

theorem splitVec_getD (Ds M : Nat) (v : List ℚ) (m : Nat) (hm : m < M) :
    (splitVec Ds M v).getD m [] = (v.drop (m * Ds)).take Ds := by
  have h2 : m < (splitVec Ds M v).length := by
    rw [splitVec_length]
    exact hm
  rw [List.getD_eq_getElem _ _ h2]
  exact splitVec_getElem Ds M v m hm h2

theorem nearestCodeword_lt (cb : List (List ℚ)) (sub : List ℚ) (h : cb ≠ []) :
    nearestCodeword cb sub < cb.length := by
  have := argminIdx_lt_length (cb.map (fun w => sqDist w sub)) (by simpa using h)
  simpa [nearestCodeword] using this

theorem nearestCodeword_min (cb : List (List ℚ)) (sub : List ℚ) (j : Nat)
    (hj : j < cb.length) (hne : cb ≠ []) :
    sqDist (cb.getD (nearestCodeword cb sub) []) sub ≤ sqDist (cb.getD j []) sub := by
  have hlt := nearestCodeword_lt cb sub hne
  have h1 := argminIdx_le (cb.map (fun w => sqDist w sub)) j (by simpa using hj)
  rw [getD_map_of_lt _ _ _ (by simpa [nearestCodeword] using hlt),
      getD_map_of_lt _ _ _ hj] at h1
  rwa [List.getD_eq_getElem _ _ hlt, List.getD_eq_getElem _ _ hj]

theorem nearestCodeword_strict (cb : List (List ℚ)) (sub : List ℚ) (j : Nat)
    (hj : j < nearestCodeword cb sub) (hne : cb ≠ []) :
    sqDist (cb.getD (nearestCodeword cb sub) []) sub < sqDist (cb.getD j []) sub := by
  have hlt := nearestCodeword_lt cb sub hne
  have hjlen : j < cb.length := lt_trans hj hlt
  have h1 := argminIdx_strict (cb.map (fun w => sqDist w sub)) j
    (by simpa [nearestCodeword] using hj)
  rw [getD_map_of_lt _ _ _ (by simpa [nearestCodeword] using hlt),
      getD_map_of_lt _ _ _ hjlen] at h1
  rwa [List.getD_eq_getElem _ _ hlt, List.getD_eq_getElem _ _ hjlen]

theorem encode_ok (e : PQEncoder) (cbs : List (List (List ℚ))) (v : List ℚ)
    (hcb : e.codebooks = some cbs) (hv : v.length = e.M * e.Ds) :
    encode e v =
      .ok (List.zipWith (fun cb sub => nearestCodeword cb sub) cbs
        (splitVec e.Ds e.M v)) := by
  simp [encode, hcb, hv]

theorem encode_entry (e : PQEncoder) (cbs : List (List (List ℚ))) (v : List ℚ)
    (code : List Nat) (m : Nat)
    (hcb : e.codebooks = some cbs) (hlen : cbs.length = e.M)
    (hv : v.length = e.M * e.Ds) (henc : encode e v = .ok code) (hm : m < e.M) :
    code.getD m 0 = nearestCodeword (cbs.getD m []) ((v.drop (m * e.Ds)).take e.Ds) := by
  rw [encode_ok e cbs v hcb hv] at henc
  have hcode : code = List.zipWith (fun cb sub => nearestCodeword cb sub) cbs
      (splitVec e.Ds e.M v) := by
    exact (Except.ok.injEq _ _).mp henc.symm
  subst hcode
  have hlt : m < (List.zipWith (fun cb sub => nearestCodeword cb sub) cbs
      (splitVec e.Ds e.M v)).length := by
    rw [List.length_zipWith, hlen, splitVec_length]
    simpa using hm
  rw [List.getD_eq_getElem _ _ hlt, List.getElem_zipWith]
  congr 1
  · rw [List.getD_eq_getElem _ _ (by rw [hlen]; exact hm)]
  · exact splitVec_getElem e.Ds e.M v m hm _

/-- Claim C1: for every fitted PQ encoder and every input vector of the
encoder's dimensionality, the code entry of each subspace is the index of
the codeword minimising the (squared) Euclidean distance to the vector's
sub-vector in that subspace, ties broken by the lowest codeword index. -/
theorem C1_encode_nearest (e : PQEncoder) (cbs : List (List (List ℚ)))
    (v : List ℚ) (code : List Nat) (m : Nat)
    (hcb : e.codebooks = some cbs) (hlen : cbs.length = e.M)
    (hv : v.length = e.M * e.Ds) (henc : encode e v = .ok code) (hm : m < e.M)
    (hKs : 0 < (cbs.getD m []).length) :
    code.getD m 0 < (cbs.getD m []).length ∧
    (∀ j, j < (cbs.getD m []).length →
      sqDist ((cbs.getD m []).getD (code.getD m 0) []) ((v.drop (m * e.Ds)).take e.Ds) ≤
        sqDist ((cbs.getD m []).getD j []) ((v.drop (m * e.Ds)).take e.Ds)) ∧
    (∀ j, j < code.getD m 0 →
      sqDist ((cbs.getD m []).getD (code.getD m 0) []) ((v.drop (m * e.Ds)).take e.Ds) <
        sqDist ((cbs.getD m []).getD j []) ((v.drop (m * e.Ds)).take e.Ds)) := by
  have hne : cbs.getD m [] ≠ [] := by
    intro hnil
    rw [hnil] at hKs
    simp at hKs
  rw [encode_entry e cbs v code m hcb hlen hv henc hm]
  refine ⟨nearestCodeword_lt _ _ hne, ?_, ?_⟩
  · intro j hj
    exact nearestCodeword_min _ _ j hj hne
  · intro j hj
    exact nearestCodeword_strict _ _ j hj hne

/-- Concrete codebook collection used by the witnesses: `M = 2` subspaces,
`Ks = 2` codewords of dimensionality `Ds = 2` each. -/
def cbsW : List (List (List ℚ)) := [[[0, 0], [1, 1]], [[0, 0], [2, 2]]]

/-- Concrete fitted encoder used by the witnesses. -/
def eW : PQEncoder := ⟨2, 2, 2, some cbsW⟩

theorem C1_encode_nearest_witness :
    (eW.codebooks = some cbsW ∧ cbsW.length = eW.M ∧
      ([(1 : ℚ), 1, 0, 0].length = eW.M * eW.Ds) ∧
      encode eW [1, 1, 0, 0] = .ok [1, 0] ∧ 0 < eW.M ∧
      0 < (cbsW.getD 0 []).length) ∧
    (([1, 0] : List Nat).getD 0 0 < (cbsW.getD 0 []).length ∧
    (∀ j, j < (cbsW.getD 0 []).length →
      sqDist ((cbsW.getD 0 []).getD (([1, 0] : List Nat).getD 0 0) [])
          (([(1 : ℚ), 1, 0, 0].drop (0 * eW.Ds)).take eW.Ds) ≤
        sqDist ((cbsW.getD 0 []).getD j [])
          (([(1 : ℚ), 1, 0, 0].drop (0 * eW.Ds)).take eW.Ds)) ∧
    (∀ j, j < ([1, 0] : List Nat).getD 0 0 →
      sqDist ((cbsW.getD 0 []).getD (([1, 0] : List Nat).getD 0 0) [])
          (([(1 : ℚ), 1, 0, 0].drop (0 * eW.Ds)).take eW.Ds) <
        sqDist ((cbsW.getD 0 []).getD j [])
          (([(1 : ℚ), 1, 0, 0].drop (0 * eW.Ds)).take eW.Ds))) := by
  have henc : encode eW [1, 1, 0, 0] = .ok [1, 0] := by
    norm_num [encode, eW, cbsW, nearestCodeword, argminIdx, sqDist, splitVec]
  exact ⟨⟨rfl, rfl, rfl, henc, by norm_num [eW], by norm_num [cbsW]⟩,
    C1_encode_nearest eW cbsW [1, 1, 0, 0] [1, 0] 0 rfl rfl rfl henc
      (by norm_num [eW]) (by norm_num [cbsW])⟩

theorem decode_ok (e : PQEncoder) (cbs : List (List (List ℚ))) (code : List Nat)
    (hcb : e.codebooks = some cbs) (hc : code.length = e.M) :
    decode e code =
      .ok ((List.zipWith (fun cb j => cb.getD j []) cbs code).flatten) := by
  simp [decode, hcb, hc]

theorem wf_cb_length (M Ks Ds : Nat) (cbs : List (List (List ℚ)))
    (hwf : wellFormed M Ks Ds cbs) (i : Nat) (hi : i < cbs.length) :
    cbs[i].length = Ks :=
  (hwf.2 cbs[i] (List.getElem_mem hi)).1

theorem wf_codeword_length (M Ks Ds : Nat) (cbs : List (List (List ℚ)))
    (hwf : wellFormed M Ks Ds cbs) (i j : Nat) (hi : i < cbs.length)
    (hj : j < cbs[i].length) : cbs[i][j].length = Ds :=
  (hwf.2 cbs[i] (List.getElem_mem hi)).2 cbs[i][j] (List.getElem_mem hj)

theorem splitVec_flatten (Ds : Nat) (bls : List (List ℚ))
    (h : ∀ b ∈ bls, b.length = Ds) :
    splitVec Ds bls.length bls.flatten = bls := by
  induction bls with
  | nil => rfl
  | cons b bs ih =>
    have hb : b.length = Ds := h b (by simp)
    simp only [List.length_cons, List.flatten_cons, splitVec]
    rw [List.take_left' hb, List.drop_left' hb,
      ih (fun x hx => h x (by simp [hx]))]

theorem roundtrip_entry (cbs : List (List (List ℚ))) (Ks Ds : Nat)
    (hwf : ∀ cb ∈ cbs, cb.length = Ks ∧ ∀ w ∈ cb, w.length = Ds)
    (hKs : 0 < Ks) (i : Nat) (hi : i < cbs.length) (s : Nat) (hs : s < Ks) :
    cbs[i].getD (nearestCodeword cbs[i] (cbs[i].getD s [])) [] = cbs[i].getD s [] := by
  have hcblen : cbs[i].length = Ks := (hwf cbs[i] (List.getElem_mem hi)).1
  have hne : cbs[i] ≠ [] := by
    apply List.ne_nil_of_length_pos
    omega
  have hs' : s < cbs[i].length := by omega
  set target := cbs[i].getD s [] with htarget
  have hjlt := nearestCodeword_lt cbs[i] target hne
  have hmin := nearestCodeword_min cbs[i] target s hs' hne
  rw [← htarget, sqDist_self] at hmin
  have hzero : sqDist (cbs[i].getD (nearestCodeword cbs[i] target) []) target = 0 :=
    le_antisymm hmin (sqDist_nonneg _ _)
  apply sqDist_eq_zero _ _ _ hzero
  rw [htarget, List.getD_eq_getElem _ _ hjlt, List.getD_eq_getElem _ _ hs']
  rw [(hwf cbs[i] (List.getElem_mem hi)).2 _ (List.getElem_mem hjlt),
    (hwf cbs[i] (List.getElem_mem hi)).2 _ (List.getElem_mem hs')]

/-- Claim C2: for every fitted encoder and vector of its dimensionality,
`decode (encode v)` has the dimensionality of `v`; and whenever `v` is
exactly the concatenation of one real codeword per subspace,
`decode (encode v)` reproduces `v` exactly. -/
theorem C2_decode_encode (e : PQEncoder) (cbs : List (List (List ℚ)))
    (v : List ℚ) (hcb : e.codebooks = some cbs)
    (hwf : wellFormed e.M e.Ks e.Ds cbs) (hKs : 0 < e.Ks)
    (hv : v.length = e.M * e.Ds) :
    (∃ code w, encode e v = .ok code ∧ decode e code = .ok w ∧
      w.length = v.length) ∧
    (∀ sel code, sel.length = e.M → (∀ j ∈ sel, j < e.Ks) →
      v = (List.zipWith (fun cb j => cb.getD j []) cbs sel).flatten →
      encode e v = .ok code → decode e code = .ok v) := by
  obtain ⟨hlen, hwf2⟩ := hwf
  have hKslen : ∀ (n : Nat) (hn : n < cbs.length), cbs[n].length = e.Ks :=
    fun n hn => (hwf2 cbs[n] (List.getElem_mem hn)).1
  have hne : ∀ (n : Nat) (hn : n < cbs.length), cbs[n] ≠ [] := by
    intro n hn
    apply List.ne_nil_of_length_pos
    rw [hKslen n hn]
    exact hKs
  constructor
  · refine ⟨List.zipWith (fun cb sub => nearestCodeword cb sub) cbs
      (splitVec e.Ds e.M v),
      (List.zipWith (fun cb j => cb.getD j []) cbs
        (List.zipWith (fun cb sub => nearestCodeword cb sub) cbs
          (splitVec e.Ds e.M v))).flatten,
      encode_ok e cbs v hcb hv, ?_, ?_⟩
    · apply decode_ok e cbs _ hcb
      rw [List.length_zipWith, hlen, splitVec_length]
      simp
    · rw [List.length_flatten, hv]
      have hrep : (List.zipWith (fun cb j => cb.getD j ([] : List ℚ)) cbs
          (List.zipWith (fun cb sub => nearestCodeword cb sub) cbs
            (splitVec e.Ds e.M v))).map List.length =
          List.replicate e.M e.Ds := by
        rw [List.eq_replicate_iff]
        constructor
        · simp [List.length_zipWith, splitVec_length, hlen]
        · intro b hb
          obtain ⟨x, hx, hxb⟩ := List.mem_map.mp hb
          obtain ⟨n, hn, hnx⟩ := List.mem_iff_getElem.mp hx
          simp only [List.length_zipWith, splitVec_length, hlen, min_self,
            lt_inf_iff] at hn
          have hncb : n < cbs.length := by omega
          simp only [List.getElem_zipWith] at hnx
          have hsp : n < (splitVec e.Ds e.M v).length := by
            rw [splitVec_length]
            omega
          have hjlt := nearestCodeword_lt cbs[n] (splitVec e.Ds e.M v)[n]
            (hne n hncb)
          rw [List.getD_eq_getElem _ _ hjlt] at hnx
          rw [← hxb, ← hnx]
          exact wf_codeword_length e.M e.Ks e.Ds cbs ⟨hlen, hwf2⟩ n _ hncb hjlt
      rw [hrep, List.sum_replicate, smul_eq_mul]
  · intro sel code hsel hselval hveq henc
    have hblocks : ∀ b ∈ List.zipWith (fun cb j => cb.getD j ([] : List ℚ)) cbs sel,
        b.length = e.Ds := by
      intro b hb
      obtain ⟨n, hn, hnb⟩ := List.mem_iff_getElem.mp hb
      simp only [List.length_zipWith, lt_inf_iff] at hn
      have hncb : n < cbs.length := hn.1
      have hnsel : n < sel.length := hn.2
      simp only [List.getElem_zipWith] at hnb
      have hslt : sel[n] < cbs[n].length := by
        rw [hKslen n hncb]
        exact hselval sel[n] (List.getElem_mem hnsel)
      rw [List.getD_eq_getElem _ _ hslt] at hnb
      rw [← hnb]
      exact wf_codeword_length e.M e.Ks e.Ds cbs ⟨hlen, hwf2⟩ n _ hncb hslt
    have hblen : (List.zipWith (fun cb j => cb.getD j ([] : List ℚ)) cbs sel).length
        = e.M := by
      rw [List.length_zipWith, hlen, hsel]
      simp
    have hsplit : splitVec e.Ds e.M v =
        List.zipWith (fun cb j => cb.getD j ([] : List ℚ)) cbs sel := by
      rw [hveq, ← hblen, splitVec_flatten e.Ds _ hblocks]
    rw [encode_ok e cbs v hcb hv, hsplit] at henc
    have hcode : code = List.zipWith (fun cb sub => nearestCodeword cb sub) cbs
        (List.zipWith (fun cb j => cb.getD j ([] : List ℚ)) cbs sel) :=
      (Except.ok.injEq _ _).mp henc.symm
    subst hcode
    have hcodelen : (List.zipWith (fun cb sub => nearestCodeword cb sub) cbs
        (List.zipWith (fun cb j => cb.getD j ([] : List ℚ)) cbs sel)).length = e.M := by
      rw [List.length_zipWith, hblen, hlen]
      simp
    rw [decode_ok e cbs _ hcb hcodelen]
    congr 1
    rw [hveq]
    congr 1
    apply List.ext_getElem
    · simp only [List.length_zipWith, hlen, hsel, hblen, hcodelen]
      simp
    · intro n h1 h2
      simp only [List.length_zipWith, lt_inf_iff] at h1 h2
      have hncb : n < cbs.length := h1.1
      have hnsel : n < sel.length := h2.2
      simp only [List.getElem_zipWith]
      exact roundtrip_entry cbs e.Ks e.Ds hwf2 hKs n hncb sel[n]
        (hselval sel[n] (List.getElem_mem hnsel))

theorem C2_decode_encode_witness :
    (eW.codebooks = some cbsW ∧ wellFormed eW.M eW.Ks eW.Ds cbsW ∧ 0 < eW.Ks ∧
      ([(1 : ℚ), 1, 0, 0].length = eW.M * eW.Ds)) ∧
    ((∃ code w, encode eW [1, 1, 0, 0] = .ok code ∧
        decode eW code = .ok w ∧ w.length = [(1 : ℚ), 1, 0, 0].length) ∧
    (∀ sel code, sel.length = eW.M → (∀ j ∈ sel, j < eW.Ks) →
      [(1 : ℚ), 1, 0, 0] =
        (List.zipWith (fun cb j => cb.getD j []) cbsW sel).flatten →
      encode eW [1, 1, 0, 0] = .ok code →
      decode eW code = .ok [1, 1, 0, 0])) := by
  have hwf : wellFormed eW.M eW.Ks eW.Ds cbsW := ⟨rfl, by decide⟩
  exact ⟨⟨rfl, hwf, by norm_num [eW], rfl⟩,
    C2_decode_encode eW cbsW [1, 1, 0, 0] rfl hwf (by norm_num [eW]) rfl⟩

theorem codeDist_self (cbs : List (List (List ℚ))) (c : List Nat) :
    codeDist cbs c c = 0 := by
  induction cbs generalizing c with
  | nil => simp [codeDist]
  | cons cb cbs ih =>
    cases c with
    | nil => simp [codeDist]
    | cons x xs =>
      simp only [codeDist, List.zip_cons_cons, List.zipWith_cons_cons,
        List.sum_cons] at *
      rw [sqDist_self, ih xs, zero_add]

theorem codeDist_comm (cbs : List (List (List ℚ))) (a b : List Nat) :
    codeDist cbs a b = codeDist cbs b a := by
  induction cbs generalizing a b with
  | nil => simp [codeDist]
  | cons cb cbs ih =>
    cases a with
    | nil => simp [codeDist]
    | cons x xs =>
      cases b with
      | nil => simp [codeDist]
      | cons y ys =>
        simp only [codeDist, List.zip_cons_cons, List.zipWith_cons_cons,
          List.sum_cons] at *
        rw [sqDist_comm, ih xs ys]

/-- Claim C3: for every fitted encoder and valid codes `a`, `b`, `c`, the
code-to-code distance of a code with itself is zero, and the distance is
symmetric. -/
theorem C3_code_distance (e : PQEncoder) (cbs : List (List (List ℚ)))
    (a b c : List Nat) (hcb : e.codebooks = some cbs)
    (ha : a.length = e.M ∧ ∀ x ∈ a, x < e.Ks)
    (hb : b.length = e.M ∧ ∀ x ∈ b, x < e.Ks)
    (hc : c.length = e.M ∧ ∀ x ∈ c, x < e.Ks) :
    code_to_code_distance e c c = .ok 0 ∧
    code_to_code_distance e a b = code_to_code_distance e b a := by
  constructor
  · simp [code_to_code_distance, hcb, codeDist_self]
  · simp [code_to_code_distance, hcb, codeDist_comm cbs a b]

theorem C3_code_distance_witness :
    (eW.codebooks = some cbsW ∧
      (([0, 1] : List Nat).length = eW.M ∧ ∀ x ∈ ([0, 1] : List Nat), x < eW.Ks) ∧
      (([1, 0] : List Nat).length = eW.M ∧ ∀ x ∈ ([1, 0] : List Nat), x < eW.Ks) ∧
      (([1, 1] : List Nat).length = eW.M ∧ ∀ x ∈ ([1, 1] : List Nat), x < eW.Ks)) ∧
    (code_to_code_distance eW [1, 1] [1, 1] = .ok 0 ∧
      code_to_code_distance eW [0, 1] [1, 0] =
        code_to_code_distance eW [1, 0] [0, 1]) := by
  refine ⟨⟨rfl, by decide, by decide, by decide⟩, ?_⟩
  exact C3_code_distance eW cbsW [0, 1] [1, 0] [1, 1] rfl
    (by decide) (by decide) (by decide)

/-- Claim C7: encoding a vector whose length differs from the encoder's
dimensionality fails with `DimensionMismatchError`, and no code is
produced (the operation returns only the error value and mutates
nothing). -/
theorem C7_dimension_mismatch (e : PQEncoder) (cbs : List (List (List ℚ)))
    (v : List ℚ) (hcb : e.codebooks = some cbs)
    (hv : v.length ≠ e.M * e.Ds) :
    encode e v = .error .dimensionMismatch := by
  simp [encode, hcb, hv]

theorem C7_dimension_mismatch_witness :
    (eW.codebooks = some cbsW ∧ ([(0 : ℚ), 0, 0, 0, 0].length ≠ eW.M * eW.Ds)) ∧
    encode eW [0, 0, 0, 0, 0] = .error .dimensionMismatch :=
  ⟨⟨rfl, by norm_num [eW]⟩,
    C7_dimension_mismatch eW cbsW [0, 0, 0, 0, 0] rfl (by norm_num [eW])⟩

theorem fit_fitted (e : PQEncoder) (iters : Nat) (samples : List (List ℚ))
    (e2 : PQEncoder) (h : fit e iters samples = .ok e2) :
    ∃ cbs, e2.codebooks = some cbs := by
  simp only [fit] at h
  split_ifs at h with h1 h2 h3 h4
  have he2 := (Except.ok.injEq _ _).mp h
  rw [← he2]
  exact ⟨_, rfl⟩

theorem encode_ne_notFitted (e : PQEncoder) (cbs : List (List (List ℚ)))
    (v : List ℚ) (h : e.codebooks = some cbs) :
    encode e v ≠ .error .notFitted := by
  simp only [encode, h]
  split <;> simp

theorem decode_ne_notFitted (e : PQEncoder) (cbs : List (List (List ℚ)))
    (c : List Nat) (h : e.codebooks = some cbs) :
    decode e c ≠ .error .notFitted := by
  simp only [decode, h]
  split <;> simp

theorem distance_table_ne_notFitted (e : PQEncoder) (cbs : List (List (List ℚ)))
    (v : List ℚ) (h : e.codebooks = some cbs) :
    distance_table e v ≠ .error .notFitted := by
  simp only [distance_table, h]
  split <;> simp

/-- Claim C8: before `fit`, encode, decode and the distance operations all
fail with `NotFittedError`; once `fit` succeeds, none of them can fail
with `NotFittedError` any more. -/
theorem C8_not_fitted (e e2 : PQEncoder) (v : List ℚ) (c a b : List Nat)
    (samples : List (List ℚ)) (iters : Nat)
    (hunfit : e.codebooks = none) (hfit : fit e iters samples = .ok e2) :
    (encode e v = .error .notFitted ∧ decode e c = .error .notFitted ∧
      code_to_code_distance e a b = .error .notFitted ∧
      distance_table e v = .error .notFitted) ∧
    (encode e2 v ≠ .error .notFitted ∧ decode e2 c ≠ .error .notFitted ∧
      code_to_code_distance e2 a b ≠ .error .notFitted ∧
      distance_table e2 v ≠ .error .notFitted) := by
  obtain ⟨cbs2, hcbs2⟩ := fit_fitted e iters samples e2 hfit
  refine ⟨⟨?_, ?_, ?_, ?_⟩, encode_ne_notFitted e2 cbs2 v hcbs2,
    decode_ne_notFitted e2 cbs2 c hcbs2, ?_,
    distance_table_ne_notFitted e2 cbs2 v hcbs2⟩
  · simp [encode, hunfit]
  · simp [decode, hunfit]
  · simp [code_to_code_distance, hunfit]
  · simp [distance_table, hunfit]
  · simp [code_to_code_distance, hcbs2]

/-- Unfitted encoder used by the C8 witness. -/
def eU : PQEncoder := ⟨2, 2, 0, none⟩

theorem C8_not_fitted_witness :
    (eU.codebooks = none ∧
      fit eU 0 [[0, 0, 0, 0], [1, 1, 1, 1]] =
        .ok ⟨2, 2, 2, some [[[0, 0], [1, 1]], [[0, 0], [1, 1]]]⟩) ∧
    ((encode eU [0, 0, 0, 0] = .error .notFitted ∧
      decode eU [0, 0] = .error .notFitted ∧
      code_to_code_distance eU [0, 0] [1, 1] = .error .notFitted ∧
      distance_table eU [0, 0, 0, 0] = .error .notFitted) ∧
    (encode (⟨2, 2, 2, some [[[0, 0], [1, 1]], [[0, 0], [1, 1]]]⟩ : PQEncoder)
        [0, 0, 0, 0] ≠ .error .notFitted ∧
      decode (⟨2, 2, 2, some [[[0, 0], [1, 1]], [[0, 0], [1, 1]]]⟩ : PQEncoder)
        [0, 0] ≠ .error .notFitted ∧
      code_to_code_distance
        (⟨2, 2, 2, some [[[0, 0], [1, 1]], [[0, 0], [1, 1]]]⟩ : PQEncoder)
        [0, 0] [1, 1] ≠ .error .notFitted ∧
      distance_table
        (⟨2, 2, 2, some [[[0, 0], [1, 1]], [[0, 0], [1, 1]]]⟩ : PQEncoder)
        [0, 0, 0, 0] ≠ .error .notFitted)) := by
  have hfit : fit eU 0 [[0, 0, 0, 0], [1, 1, 1, 1]] =
      .ok ⟨2, 2, 2, some [[[0, 0], [1, 1]], [[0, 0], [1, 1]]]⟩ := by
    norm_num [fit, eU, lloydIter, List.range_succ]
  exact ⟨⟨rfl, hfit⟩,
    C8_not_fitted eU ⟨2, 2, 2, some [[[0, 0], [1, 1]], [[0, 0], [1, 1]]]⟩
      [0, 0, 0, 0] [0, 0] [0, 0] [1, 1] [[0, 0, 0, 0], [1, 1, 1, 1]] 0 rfl hfit⟩

/-- Claim C10: an encoder with `Ks = 256` exposes `code_dtype = uint8`, an
`N × M` code array then occupies exactly `N * M` bytes, and every code the
encoder emits has all entries below 256, hence representable without loss
in that dtype. -/
theorem C10_code_dtype (e : PQEncoder) (cbs : List (List (List ℚ)))
    (v : List ℚ) (code : List Nat) (hcb : e.codebooks = some cbs)
    (hwf : wellFormed e.M e.Ks e.Ds cbs) (hKs : e.Ks = 256)
    (henc : encode e v = .ok code) :
    code_dtype e.Ks = CodeDtype.uint8 ∧
    (∀ N M2, codesNbytes N M2 (code_dtype e.Ks) = N * M2) ∧
    (∀ x ∈ code, x < 256) := by
  obtain ⟨hlen, hwf2⟩ := hwf
  refine ⟨by norm_num [code_dtype, hKs], ?_, ?_⟩
  · intro N M2
    norm_num [codesNbytes, code_dtype, dtypeBytes, hKs]
  · intro x hx
    simp only [encode, hcb] at henc
    split_ifs at henc with hv
    have hcode : code = List.zipWith (fun cb sub => nearestCodeword cb sub) cbs
        (splitVec e.Ds e.M v) := (Except.ok.injEq _ _).mp henc.symm
    subst hcode
    obtain ⟨n, hn, hnx⟩ := List.mem_iff_getElem.mp hx
    simp only [List.length_zipWith, lt_inf_iff] at hn
    have hncb : n < cbs.length := hn.1
    simp only [List.getElem_zipWith] at hnx
    have hcblen : cbs[n].length = e.Ks :=
      (hwf2 cbs[n] (List.getElem_mem hncb)).1
    have hne2 : cbs[n] ≠ [] := by
      apply List.ne_nil_of_length_pos
      rw [hcblen, hKs]
      norm_num
    have hsp : n < (splitVec e.Ds e.M v).length := hn.2
    have := nearestCodeword_lt cbs[n] (splitVec e.Ds e.M v)[n] hne2
    rw [hnx] at this
    omega

/-- Encoder with `Ks = 256` (and `Ds = 0`) used by the C10 witness. -/
def e256 : PQEncoder := ⟨1, 256, 0, some [List.replicate 256 []]⟩

theorem getD_replicate_zero (n i : Nat) :
    (List.replicate n (0 : ℚ)).getD i 0 = 0 := by
  rcases lt_or_ge i n with h | h
  · rw [List.getD_eq_getElem _ _ (by simpa using h)]
    exact List.getElem_replicate 0 (by simpa using h)
  · rw [List.getD_eq_default _ _ (by simpa using h)]

theorem argminIdx_replicate_zero : ∀ n, argminIdx (List.replicate n (0 : ℚ)) = 0
  | 0 => rfl
  | 1 => rfl
  | (k + 2) => by
    show argminIdx (0 :: 0 :: List.replicate k 0) = 0
    rw [argminIdx_cons]
    have h0 : (0 :: List.replicate k (0 : ℚ)).getD
        (argminIdx (0 :: List.replicate k 0)) 0 = 0 := by
      have h := getD_replicate_zero (k + 1) (argminIdx (0 :: List.replicate k 0))
      simpa [List.replicate_succ] using h
    rw [h0]
    simp

set_option maxRecDepth 2048 in
theorem wf256 : wellFormed e256.M e256.Ks e256.Ds [List.replicate 256 []] := by
  refine ⟨rfl, ?_⟩
  intro cb hcb
  simp only [List.mem_singleton] at hcb
  subst hcb
  refine ⟨by simp [e256], ?_⟩
  intro w hw
  rw [List.eq_of_mem_replicate hw]
  rfl

theorem encode_e256 : encode e256 [] = .ok [0] := by
  have hn : nearestCodeword (List.replicate 256 []) ([] : List ℚ) = 0 := by
    unfold nearestCodeword
    rw [List.map_replicate]
    have hz : sqDist [] [] = 0 := rfl
    rw [hz, argminIdx_replicate_zero]
  have h1 : encode e256 [] = .ok (List.zipWith (fun cb sub => nearestCodeword cb sub)
      [List.replicate 256 []] (splitVec e256.Ds e256.M [])) :=
    encode_ok e256 [List.replicate 256 []] [] rfl rfl
  rw [h1]
  have h2 : splitVec e256.Ds e256.M ([] : List ℚ) = [[]] := rfl
  rw [h2]
  have h3 : List.zipWith (fun cb sub => nearestCodeword cb sub)
      [List.replicate 256 ([] : List ℚ)] [[]] =
      [nearestCodeword (List.replicate 256 []) []] := rfl
  rw [h3, hn]

theorem C10_code_dtype_witness :
    (e256.codebooks = some [List.replicate 256 []] ∧
      wellFormed e256.M e256.Ks e256.Ds [List.replicate 256 []] ∧
      e256.Ks = 256 ∧ encode e256 [] = .ok [0]) ∧
    (code_dtype e256.Ks = CodeDtype.uint8 ∧
      (∀ N M2, codesNbytes N M2 (code_dtype e256.Ks) = N * M2) ∧
      (∀ x ∈ ([0] : List Nat), x < 256)) :=
  ⟨⟨rfl, wf256, rfl, encode_e256⟩,
    C10_code_dtype e256 [List.replicate 256 []] [] [0] rfl wf256 rfl encode_e256⟩

theorem chunksAux_flatten (bs : Nat) (hbs : 1 ≤ bs) :
    ∀ (fuel : Nat) (l : List (List ℚ)), l.length ≤ fuel →
      (chunksAux bs fuel l).flatten = l
  | 0, l, h => by
    have hl : l = [] := List.eq_nil_of_length_eq_zero (Nat.le_zero.mp h)
    rw [hl]
    rfl
  | fuel + 1, l, h => by
    cases l with
    | nil => rfl
    | cons x xs =>
      show (List.take bs (x :: xs) :: chunksAux bs fuel (List.drop bs (x :: xs))).flatten
        = x :: xs
      rw [List.flatten_cons,
        chunksAux_flatten bs hbs fuel _ (by rw [List.length_drop]; simp at h ⊢; omega),
        List.take_append_drop]

theorem chunks_flatten (bs : Nat) (l : List (List ℚ)) : (chunks bs l).flatten = l :=
  chunksAux_flatten (max bs 1) (le_max_right _ _) l.length l le_rfl

theorem workerOutput_cons (e : PQEncoder) (n w j : Nat) (c : List (List ℚ))
    (rest : List (Nat × List (List ℚ))) :
    workerOutput e n w ((j, c) :: rest) =
      if j % n == w then
        (j, c.map (fun v => encode e v)) :: workerOutput e n w rest
      else workerOutput e n w rest := by
  simp only [workerOutput, List.filter_cons]
  by_cases h : (j % n == w) = true
  · simp [h]
  · simp [h]

theorem workerOutput_lookup (e : PQEncoder) (n : Nat) :
    ∀ (ibs : List (Nat × List (List ℚ))) (i : Nat) (b : List (List ℚ)),
      (ibs.map Prod.fst).Nodup → (i, b) ∈ ibs →
      (workerOutput e n (i % n) ibs).lookup i = some (b.map (fun v => encode e v))
  | [], i, b, _, hmem => absurd hmem (List.not_mem_nil _)
  | (j, c) :: rest, i, b, hnd, hmem => by
    rw [workerOutput_cons]
    rw [List.map_cons] at hnd
    have hjni := (List.nodup_cons.mp hnd).1
    have hnd2 := (List.nodup_cons.mp hnd).2
    by_cases hij : i = j
    · subst hij
      have hb : b = c := by
        rcases List.mem_cons.mp hmem with heq | hrest
        · simpa using heq
        · exact absurd (List.mem_map_of_mem Prod.fst hrest) hjni
      subst hb
      rw [if_pos (by simp)]
      simp [List.lookup]
    · have hmem2 : (i, b) ∈ rest := by
        rcases List.mem_cons.mp hmem with heq | hrest
        · exact absurd (congrArg Prod.fst heq) hij
        · exact hrest
      by_cases hpj : (j % n == i % n) = true
      · rw [if_pos hpj]
        have hfalse : (i == j) = false := by simp [hij]
        simp only [List.lookup, hfalse]
        exact workerOutput_lookup e n rest i b hnd2 hmem2
      · rw [if_neg hpj]
        exact workerOutput_lookup e n rest i b hnd2 hmem2

theorem transform_generator_eq (e : PQEncoder) (nw bs : Nat)
    (vs : List (List ℚ)) :
    transform_generator e nw bs vs = vs.map (fun v => encode e v) := by
  have hdef : transform_generator e nw bs vs =
      ((chunks bs vs).enum.map (fun ib =>
        ((workerOutput e (max nw 1) (ib.1 % max nw 1)
          (chunks bs vs).enum).lookup ib.1).getD [])).flatten := rfl
  rw [hdef]
  have hnodup : ((chunks bs vs).enum.map Prod.fst).Nodup := by
    rw [List.enum_map_fst]
    exact List.nodup_range _
  have hmap : (chunks bs vs).enum.map (fun ib =>
      ((workerOutput e (max nw 1) (ib.1 % max nw 1)
        (chunks bs vs).enum).lookup ib.1).getD []) =
      (chunks bs vs).enum.map (fun ib => ib.2.map (fun v => encode e v)) := by
    apply List.map_congr_left
    intro ib hib
    obtain ⟨i, b⟩ := ib
    rw [workerOutput_lookup e (max nw 1) (chunks bs vs).enum i b hnodup hib]
    rfl
  rw [hmap]
  have h2 : (chunks bs vs).enum.map (fun ib => ib.2.map (fun v => encode e v)) =
      (chunks bs vs).map (fun b => b.map (fun v => encode e v)) := by
    rw [show (fun ib : Nat × List (List ℚ) => ib.2.map (fun v => encode e v)) =
      (fun b : List (List ℚ) => b.map (fun v => encode e v)) ∘ Prod.snd from rfl]
    rw [← List.map_map, List.enum_map_snd]
  rw [h2, ← List.map_flatten, chunks_flatten]

/-- Claim C4: for every fitted encoder and finite source of `N` vectors,
the streaming transform yields exactly `N` results in input order, the
`i`-th being the encoding of the `i`-th vector (an `.ok` code whenever
that vector has the encoder's dimensionality), and the output does not
depend on the worker count or the batch size. -/
theorem C4_transform_generator (e : PQEncoder) (cbs : List (List (List ℚ)))
    (nw bs : Nat) (vs : List (List ℚ)) (hcb : e.codebooks = some cbs) :
    (transform_generator e nw bs vs).length = vs.length ∧
    (∀ i, i < vs.length →
      (transform_generator e nw bs vs).getD i (.error .notFitted) =
        encode e (vs.getD i [])) ∧
    (∀ nw2 bs2, transform_generator e nw2 bs2 vs =
      transform_generator e nw bs vs) ∧
    (∀ i, i < vs.length → (vs.getD i []).length = e.M * e.Ds →
      ∃ c, (transform_generator e nw bs vs).getD i (.error .notFitted) = .ok c) := by
  refine ⟨?_, ?_, ?_, ?_⟩
  · rw [transform_generator_eq, List.length_map]
  · intro i hi
    rw [transform_generator_eq,
      List.getD_eq_getElem _ _ (by rw [List.length_map]; exact hi),
      List.getElem_map, List.getD_eq_getElem _ _ hi]
  · intro nw2 bs2
    rw [transform_generator_eq, transform_generator_eq]
  · intro i hi hdim
    rw [transform_generator_eq,
      List.getD_eq_getElem _ _ (by rw [List.length_map]; exact hi),
      List.getElem_map]
    rw [List.getD_eq_getElem _ _ hi] at hdim
    exact ⟨_, encode_ok e cbs vs[i] hcb hdim⟩

theorem C4_transform_generator_witness :
    (eW.codebooks = some cbsW) ∧
    ((transform_generator eW 3 2 [[1, 1, 0, 0], [0, 0, 2, 2], [0, 0, 0, 0]]).length =
      ([[1, 1, 0, 0], [0, 0, 2, 2], [0, 0, 0, 0]] : List (List ℚ)).length ∧
    (∀ i, i < ([[1, 1, 0, 0], [0, 0, 2, 2], [0, 0, 0, 0]] : List (List ℚ)).length →
      (transform_generator eW 3 2 [[1, 1, 0, 0], [0, 0, 2, 2], [0, 0, 0, 0]]).getD i
          (.error .notFitted) =
        encode eW (([[1, 1, 0, 0], [0, 0, 2, 2], [0, 0, 0, 0]] : List (List ℚ)).getD i [])) ∧
    (∀ nw2 bs2, transform_generator eW nw2 bs2 [[1, 1, 0, 0], [0, 0, 2, 2], [0, 0, 0, 0]] =
      transform_generator eW 3 2 [[1, 1, 0, 0], [0, 0, 2, 2], [0, 0, 0, 0]]) ∧
    (∀ i, i < ([[1, 1, 0, 0], [0, 0, 2, 2], [0, 0, 0, 0]] : List (List ℚ)).length →
      (([[1, 1, 0, 0], [0, 0, 2, 2], [0, 0, 0, 0]] : List (List ℚ)).getD i []).length =
        eW.M * eW.Ds →
      ∃ c, (transform_generator eW 3 2 [[1, 1, 0, 0], [0, 0, 2, 2], [0, 0, 0, 0]]).getD i
          (.error .notFitted) = .ok c)) :=
  ⟨rfl, C4_transform_generator eW cbsW 3 2 [[1, 1, 0, 0], [0, 0, 2, 2], [0, 0, 0, 0]] rfl⟩

/-! Lemmas about the discrete Updating step. -/

theorem bestCodeword_lt (cb : List (List ℚ)) (entries : List Nat)
    (h : 0 < cb.length) : bestCodeword cb entries < cb.length := by
  have hne : (List.range cb.length).map (fun j => subspaceScore cb entries j) ≠ [] := by
    apply List.ne_nil_of_length_pos
    simpa using h
  have := argminIdx_lt_length _ hne
  simpa [bestCodeword] using this

theorem bestCodeword_min (cb : List (List ℚ)) (entries : List Nat) (j : Nat)
    (hj : j < cb.length) (h0 : 0 < cb.length) :
    subspaceScore cb entries (bestCodeword cb entries) ≤ subspaceScore cb entries j := by
  have hlt := bestCodeword_lt cb entries h0
  have h1 := argminIdx_le ((List.range cb.length).map
    (fun j => subspaceScore cb entries j)) j (by simpa using hj)
  rw [getD_map_of_lt (fun j => subspaceScore cb entries j) (List.range cb.length)
    j (by simpa using hj) 0, List.getElem_range] at h1
  rw [getD_map_of_lt (fun j => subspaceScore cb entries j) (List.range cb.length)
    (argminIdx ((List.range cb.length).map (fun j => subspaceScore cb entries j)))
    (by simpa [bestCodeword] using hlt) 0, List.getElem_range] at h1
  simpa [bestCodeword] using h1

theorem updatingStep_rep (cbs : List (List (List ℚ))) (K : Nat)
    (codes : List (List Nat)) (labels : List Nat) (k : Nat) (hk : k < K) :
    (updatingStep cbs K codes labels).1.getD k [] =
      updateRep cbs (clusterMembers codes (reseed K labels) k) := by
  show ((List.range K).map
    (fun k => updateRep cbs (clusterMembers codes (reseed K labels) k))).getD k [] = _
  rw [getD_map_of_lt _ _ _ (by simpa using hk), List.getElem_range]

theorem updateRep_entry (cbs : List (List (List ℚ))) (members : List (List Nat))
    (m : Nat) (hm : m < cbs.length) :
    (updateRep cbs members).getD m 0 =
      bestCodeword (cbs.getD m []) (members.map (fun c => c.getD m 0)) := by
  unfold updateRep
  rw [getD_map_of_lt _ _ _ (by simpa using hm), List.getElem_range]

/-- Claim C6: in the Updating step, for every cluster (in particular every
non-empty one) and every subspace, the recomputed representative's entry
is a codeword index within `[0, Ks)` minimising, over all `Ks` candidate
codewords of that subspace's codebook, the total distance to the member
codes' codewords in that subspace. -/
theorem C6_update_minimizes (cbs : List (List (List ℚ))) (K : Nat)
    (codes : List (List Nat)) (labels : List Nat) (k m : Nat)
    (hk : k < K) (hm : m < cbs.length) (hKs : 0 < (cbs.getD m []).length)
    (hne : clusterMembers codes (reseed K labels) k ≠ []) :
    ((updatingStep cbs K codes labels).1.getD k []).getD m 0 <
      (cbs.getD m []).length ∧
    ∀ j, j < (cbs.getD m []).length →
      subspaceScore (cbs.getD m [])
        ((clusterMembers codes (reseed K labels) k).map (fun c => c.getD m 0))
        (((updatingStep cbs K codes labels).1.getD k []).getD m 0) ≤
      subspaceScore (cbs.getD m [])
        ((clusterMembers codes (reseed K labels) k).map (fun c => c.getD m 0)) j := by
  rw [updatingStep_rep cbs K codes labels k hk, updateRep_entry cbs _ m hm]
  exact ⟨bestCodeword_lt _ _ hKs, fun j hj => bestCodeword_min _ _ j hj hKs⟩

theorem C6_update_minimizes_witness :
    (0 < 2 ∧ 0 < cbsW.length ∧ 0 < (cbsW.getD 0 []).length ∧
      clusterMembers [[0, 0], [1, 1], [1, 0]] (reseed 2 [0, 1, 0]) 0 ≠ []) ∧
    (((updatingStep cbsW 2 [[0, 0], [1, 1], [1, 0]] [0, 1, 0]).1.getD 0 []).getD 0 0 <
      (cbsW.getD 0 []).length ∧
    ∀ j, j < (cbsW.getD 0 []).length →
      subspaceScore (cbsW.getD 0 [])
        ((clusterMembers [[0, 0], [1, 1], [1, 0]] (reseed 2 [0, 1, 0]) 0).map
          (fun c => c.getD 0 0))
        (((updatingStep cbsW 2 [[0, 0], [1, 1], [1, 0]] [0, 1, 0]).1.getD 0 []).getD 0 0) ≤
      subspaceScore (cbsW.getD 0 [])
        ((clusterMembers [[0, 0], [1, 1], [1, 0]] (reseed 2 [0, 1, 0]) 0).map
          (fun c => c.getD 0 0)) j) := by
  refine ⟨⟨by norm_num, by norm_num [cbsW], by norm_num [cbsW], by decide⟩, ?_⟩
  exact C6_update_minimizes cbsW 2 [[0, 0], [1, 1], [1, 0]] [0, 1, 0] 0 0
    (by norm_num) (by norm_num [cbsW]) (by norm_num [cbsW]) (by decide)

/-! Lemmas about the deterministic re-seeding policy. -/

theorem count_set_self (labels : List Nat) (i k : Nat) (hi : i < labels.length) :
    1 ≤ (labels.set i k).count k := by
  rw [List.count_set _ _ _ _ hi]
  split_ifs <;> simp_all

theorem count_set_preserve (labels : List Nat) (i k m : Nat)
    (hi : i < labels.length) (hcnt : 2 ≤ labels.count (labels.getD i 0))
    (hm : 1 ≤ labels.count m) : 1 ≤ (labels.set i k).count m := by
  rw [List.getD_eq_getElem _ _ hi] at hcnt
  rw [List.count_set _ _ _ _ hi]
  simp only [beq_iff_eq]
  split_ifs with h1 h2 h3 <;> first
    | (rw [h1] at hcnt; omega)
    | omega

theorem stealIdx_spec (K : Nat) (labels : List Nat)
    (hex : ∃ j ∈ List.range K, 2 ≤ labels.count j) :
    ∃ i, stealIdx K labels = some i ∧ i < labels.length ∧
      2 ≤ labels.count (labels.getD i 0) := by
  have h1 : ((List.range K).find? (fun j => decide (2 ≤ labels.count j))).isSome := by
    rw [List.find?_isSome]
    obtain ⟨j, hj, hcnt⟩ := hex
    exact ⟨j, hj, by simpa using hcnt⟩
  obtain ⟨j, hfind⟩ := Option.isSome_iff_exists.mp h1
  have hcnt : 2 ≤ labels.count j := by simpa using List.find?_some hfind
  have hmem : j ∈ labels := List.count_pos_iff.mp (by omega)
  have hidx : labels.indexOf j < labels.length := List.indexOf_lt_length.mpr hmem
  refine ⟨labels.indexOf j, ?_, hidx, ?_⟩
  · unfold stealIdx
    rw [hfind]
  · rw [List.getD_eq_getElem _ _ hidx, List.getElem_indexOf hidx]
    exact hcnt

theorem sum_count_eq_length (K : Nat) (labels : List Nat)
    (h : ∀ l ∈ labels, l < K) :
    ∑ j ∈ Finset.range K, labels.count j = labels.length := by
  induction labels with
  | nil => simp
  | cons a t ih =>
    have ha : a < K := h a (by simp)
    have iht := ih (fun l hl => h l (by simp [hl]))
    simp only [List.count_cons, List.length_cons]
    rw [Finset.sum_add_distrib, iht]
    congr 1
    have hone : (∑ j ∈ Finset.range K, if (a == j) = true then 1 else 0) = 1 := by
      simp only [beq_iff_eq]
      rw [Finset.sum_ite_eq]
      simp [ha]
    exact hone

theorem exists_donor (K : Nat) (labels : List Nat) (k : Nat) (hk : k < K)
    (hzero : labels.count k = 0) (hrange : ∀ l ∈ labels, l < K)
    (hlen : K ≤ labels.length) :
    ∃ j ∈ List.range K, 2 ≤ labels.count j := by
  by_contra hno
  push_neg at hno
  have hsum := sum_count_eq_length K labels hrange
  have hk' : k ∈ Finset.range K := Finset.mem_range.mpr hk
  rw [← Finset.add_sum_erase _ _ hk', hzero, zero_add] at hsum
  have hbound : ∑ j ∈ (Finset.range K).erase k, labels.count j ≤
      ∑ _j ∈ (Finset.range K).erase k, 1 := by
    apply Finset.sum_le_sum
    intro i hi
    have hiK : i ∈ List.range K := by
      have := Finset.mem_of_mem_erase hi
      simpa [List.mem_range] using Finset.mem_range.mp this
    have := hno i hiK
    omega
  rw [Finset.sum_const, Finset.card_erase_of_mem hk', smul_eq_mul] at hbound
  simp only [Finset.card_range, mul_one] at hbound
  omega

theorem reseedAux_count (K : Nat) : ∀ (ks labels : List Nat),
    (∀ x ∈ ks, x < K) → (∀ l ∈ labels, l < K) → K ≤ labels.length →
    ∀ k, (k ∈ ks ∨ 1 ≤ labels.count k) → 1 ≤ (reseedAux K labels ks).count k
  | [], labels, _, _, _, k, hk => by
    rcases hk with h | h
    · exact absurd h (List.not_mem_nil _)
    · simpa [reseedAux] using h
  | k1 :: ks, labels, hks, hrange, hlen, k, hk => by
    rw [reseedAux]
    by_cases hz : labels.count k1 = 0
    · rw [if_pos hz]
      have hex := exists_donor K labels k1 (hks k1 (by simp)) hz hrange hlen
      obtain ⟨i, hsteal, hi, hcnt⟩ := stealIdx_spec K labels hex
      rw [hsteal]
      show 1 ≤ (reseedAux K (labels.set i k1) ks).count k
      apply reseedAux_count K ks (labels.set i k1)
        (fun x hx => hks x (by simp [hx]))
        (fun l hl => by
          rcases List.mem_or_eq_of_mem_set hl with h | h
          · exact hrange l h
          · rw [h]
            exact hks k1 (by simp))
        (by rw [List.length_set]; exact hlen)
      rcases hk with hmem | hpos
      · rcases List.mem_cons.mp hmem with heq | htail
        · subst heq
          right
          exact count_set_self labels i k hi
        · left
          exact htail
      · right
        exact count_set_preserve labels i k1 k hi hcnt hpos
    · rw [if_neg hz]
      apply reseedAux_count K ks labels (fun x hx => hks x (by simp [hx]))
        hrange hlen
      rcases hk with hmem | hpos
      · rcases List.mem_cons.mp hmem with heq | htail
        · subst heq
          right
          omega
        · left
          exact htail
      · right
        exact hpos

theorem reseed_count (K : Nat) (labels : List Nat)
    (hrange : ∀ l ∈ labels, l < K) (hlen : K ≤ labels.length)
    (k : Nat) (hk : k < K) : 1 ≤ (reseed K labels).count k := by
  unfold reseed
  exact reseedAux_count K (List.range K) labels
    (fun x hx => List.mem_range.mp hx) hrange hlen k
    (Or.inl (List.mem_range.mpr hk))

/-- Claim C9: after every completed Updating step no cluster is empty (the
deterministic re-seeding policy restores every empty cluster, given at
least `K` codes), and `fit_predict` never surfaces `EmptyClusterError`:
with a fitted encoder and `K > 0` it returns an `.ok` label array. -/
theorem C9_no_empty_cluster (e : PQEncoder) (cbs : List (List (List ℚ)))
    (K iters : Nat) (codes : List (List Nat)) (labels : List Nat)
    (hcb : e.codebooks = some cbs) (hK : 0 < K) (hlen : K ≤ labels.length)
    (hrange : ∀ l ∈ labels, l < K) :
    (∀ k, k < K → 1 ≤ ((updatingStep cbs K codes labels).2).count k) ∧
    fit_predict e K codes iters =
      .ok (kmeansLoop cbs K codes iters (assignStep cbs (codes.take K) codes)) := by
  constructor
  · intro k hk
    show 1 ≤ (reseed K labels).count k
    exact reseed_count K labels hrange hlen k hk
  · simp [fit_predict, hcb, Nat.pos_iff_ne_zero.mp hK]

theorem C9_no_empty_cluster_witness :
    (eW.codebooks = some cbsW ∧ 0 < 2 ∧
      2 ≤ ([0, 0, 1] : List Nat).length ∧ (∀ l ∈ ([0, 0, 1] : List Nat), l < 2)) ∧
    ((∀ k, k < 2 →
      1 ≤ ((updatingStep cbsW 2 [[0, 0], [1, 1], [1, 0]] [0, 0, 1]).2).count k) ∧
    fit_predict eW 2 [[0, 0], [1, 1], [1, 0]] 1 =
      .ok (kmeansLoop cbsW 2 [[0, 0], [1, 1], [1, 0]] 1
        (assignStep cbsW (([[0, 0], [1, 1], [1, 0]] : List (List Nat)).take 2)
          [[0, 0], [1, 1], [1, 0]]))) := by
  exact ⟨⟨rfl, by norm_num, by norm_num, by decide⟩,
    C9_no_empty_cluster eW cbsW 2 1 [[0, 0], [1, 1], [1, 0]] [0, 0, 1] rfl
      (by norm_num) (by norm_num) (by decide)⟩

/-! Invariants of the clustering loop. -/

theorem assignStep_length (cbs : List (List (List ℚ))) (reps codes : List (List Nat)) :
    (assignStep cbs reps codes).length = codes.length :=
  List.length_map _ _

theorem assignStep_lt (cbs : List (List (List ℚ))) (reps codes : List (List Nat))
    (K : Nat) (hK : 0 < K) (hreps : reps.length ≤ K) :
    ∀ l ∈ assignStep cbs reps codes, l < K := by
  intro l hl
  obtain ⟨c, _, hcl⟩ := List.mem_map.mp hl
  cases reps with
  | nil =>
    rw [← hcl]
    simpa [argminIdx] using hK
  | cons r rs =>
    have h := argminIdx_lt_length ((r :: rs).map (fun r => codeDist cbs c r)) (by simp)
    rw [List.length_map] at h
    rw [← hcl]
    simp only [List.length_cons] at h hreps
    omega

theorem updatingStep_fst_length (cbs : List (List (List ℚ))) (K : Nat)
    (codes : List (List Nat)) (labels : List Nat) :
    (updatingStep cbs K codes labels).1.length = K := by
  show ((List.range K).map _).length = K
  simp

theorem kmeansLoop_inv (cbs : List (List (List ℚ))) (K : Nat)
    (codes : List (List Nat)) (hK : 0 < K) :
    ∀ (t : Nat) (labels : List Nat), labels.length = codes.length →
      (∀ l ∈ labels, l < K) →
      (kmeansLoop cbs K codes t labels).length = codes.length ∧
      (∀ l ∈ kmeansLoop cbs K codes t labels, l < K)
  | 0, labels, hlen, hrange => ⟨hlen, hrange⟩
  | t + 1, labels, hlen, hrange => by
    simp only [kmeansLoop]
    have hnlen : (assignStep cbs (updatingStep cbs K codes labels).1 codes).length
        = codes.length := assignStep_length _ _ _
    have hnlt : ∀ l ∈ assignStep cbs (updatingStep cbs K codes labels).1 codes,
        l < K := by
      apply assignStep_lt cbs _ codes K hK
      rw [updatingStep_fst_length]
    by_cases hconv : assignStep cbs (updatingStep cbs K codes labels).1 codes = labels
    · rw [if_pos hconv]
      exact ⟨hnlen, hnlt⟩
    · rw [if_neg hconv]
      exact kmeansLoop_inv cbs K codes hK t _ hnlen hnlt

/-- Claim C5: a successful `fit_predict` with `K > 0` returns one label
per input code (in input order, the `i`-th label labelling the `i`-th
code), every label lying in `[0, K)`. -/
theorem C5_fit_predict_labels (e : PQEncoder) (K iters : Nat)
    (codes : List (List Nat)) (labels : List Nat) (hK : 0 < K)
    (h : fit_predict e K codes iters = .ok labels) :
    labels.length = codes.length ∧ ∀ l ∈ labels, l < K := by
  cases hcb : e.codebooks with
  | none =>
    simp only [fit_predict, hcb] at h
    exact Except.noConfusion h
  | some cbs =>
    simp only [fit_predict, hcb] at h
    rw [if_neg (by omega)] at h
    have hlab : labels =
        kmeansLoop cbs K codes iters (assignStep cbs (codes.take K) codes) :=
      ((Except.ok.injEq _ _).mp h).symm
    subst hlab
    apply kmeansLoop_inv cbs K codes hK iters _ (assignStep_length _ _ _)
    apply assignStep_lt cbs _ codes K hK
    rw [List.length_take]
    omega

theorem C5_fit_predict_labels_witness :
    (0 < 2 ∧ fit_predict eW 2 [[0, 0], [1, 1], [1, 0], [0, 0]] 1 =
      .ok [0, 1, 0, 0]) ∧
    (([0, 1, 0, 0] : List Nat).length =
        ([[0, 0], [1, 1], [1, 0], [0, 0]] : List (List Nat)).length ∧
      ∀ l ∈ ([0, 1, 0, 0] : List Nat), l < 2) := by
  have h : fit_predict eW 2 [[0, 0], [1, 1], [1, 0], [0, 0]] 1 = .ok [0, 1, 0, 0] := by
    norm_num [fit_predict, eW, cbsW, kmeansLoop, assignStep, updatingStep, reseed,
      reseedAux, stealIdx, clusterMembers, updateRep, bestCodeword, subspaceScore,
      argminIdx, codeDist, sqDist, List.range_succ, List.indexOf, List.findIdx,
      List.findIdx.go]
  exact ⟨⟨by norm_num, h⟩,
    C5_fit_predict_labels eW 2 1 [[0, 0], [1, 1], [1, 0], [0, 0]] [0, 1, 0, 0]
      (by norm_num) h⟩

end PQKM
